import Mathlib

set_option maxHeartbeats 1000000

/-
Verification development for the ImportApp document-template assistant.
Texts are modelled as lists of characters, Python dicts as insertion-ordered
association lists, and a .docx document as its body paragraph texts plus its
tables (rows of cells of paragraph texts).  The external generative-text
service is a parameter `ai`; `ai dt msg = none` models a failing call.
-/

/-- A Python string, modelled as a list of characters. -/
abbrev Str : Type := List Char

/-- The characters Python's str.strip removes (ASCII whitespace). -/
def isPySpace (c : Char) : Bool :=
  c = ' ' || c = '\t' || c = '\n' || c = '\r' || c = Char.ofNat 11 || c = Char.ofNat 12

/-- Python str.strip(): drop whitespace at both ends. -/
def pyStrip (s : Str) : Str :=
  ((s.dropWhile isPySpace).reverse.dropWhile isPySpace).reverse

/-- Concatenation of the images of a list under a list-valued function. -/
def flatMapL {α β : Type} (f : α → List β) : List α → List β
  | [] => []
  | a :: l => f a ++ flatMapL f l

/-- Lookup in an insertion-ordered association list (a Python dict). -/
def dictGet (d : List (Str × Str)) (k : Str) : Option Str :=
  match d with
  | [] => none
  | kv :: rest => if kv.1 = k then some kv.2 else dictGet rest k

/-- Python `k in d`. -/
def dictContains (d : List (Str × Str)) (k : Str) : Bool :=
  (dictGet d k).isSome

/-- Python list(d.keys()): keys in insertion order. -/
def dictKeys (d : List (Str × Str)) : List Str :=
  d.map Prod.fst

/-- Python d[k] = v: overwrite in place if the key exists, else append. -/
def dictSet (d : List (Str × Str)) (k v : Str) : List (Str × Str) :=
  match d with
  | [] => [(k, v)]
  | kv :: rest => if kv.1 = k then (kv.1, v) :: rest else kv :: dictSet rest k v

/-- Python d.update(d2). -/
def dictUpdate (d d2 : List (Str × Str)) : List (Str × Str) :=
  d2.foldl (fun acc kv => dictSet acc kv.1 kv.2) d

/-- Python html.escape (quote=True) on one character. -/
def htmlEscape1 (c : Char) : Str :=
  if c = '&' then "&amp;".toList
  else if c = '<' then "&lt;".toList
  else if c = '>' then "&gt;".toList
  else if c = Char.ofNat 34 then "&quot;".toList
  else if c = Char.ofNat 39 then "&#x27;".toList
  else [c]

/-- Python html.escape (quote=True). -/
def htmlEscape (s : Str) : Str := flatMapL htmlEscape1 s

/-- One segment of a paragraph text: a literal character, or one match of
the placeholder pattern (a bracketed token) holding the interior text. -/
inductive Seg : Type where
  | lit : Char → Seg
  | ph : Str → Seg
deriving DecidableEq, Repr

/-- Single left-to-right scan for every match of the placeholder regex
(an opening bracket, one or more non-closing-bracket characters, a closing
bracket).  The first argument is `some acc` while inside an open bracket,
with `acc` holding the reversed interior read so far; a bracket pair with an
empty interior, or an open bracket never closed, yields literal characters,
exactly as the regex fails to match there. -/
def scanFrom : Option Str → Str → List Seg
  | none, [] => []
  | some acc, [] => Seg.lit '[' :: acc.reverse.map Seg.lit
  | none, c :: rest =>
      if c = '[' then scanFrom (some []) rest
      else Seg.lit c :: scanFrom none rest
  | some acc, c :: rest =>
      if c = ']' then
        if acc.isEmpty then Seg.lit '[' :: Seg.lit ']' :: scanFrom none rest
        else Seg.ph acc.reverse :: scanFrom none rest
      else scanFrom (some (c :: acc)) rest

/-- All matches of the placeholder pattern in a text, as a segmentation. -/
def scanSegs (s : Str) : List Seg := scanFrom none s

/-- The text a segment stands for. -/
def segText : Seg → Str
  | Seg.lit c => [c]
  | Seg.ph inner => '[' :: (inner ++ [']'])

/-- Flattening a segmentation back into text. -/
def segsText (l : List Seg) : Str := flatMapL segText l

/-- re.sub over the placeholder pattern: replace every match by `f` applied
to the interior text, leave everything else as is.  Same scanning state as
`scanFrom`. -/
def pySubFrom (f : Str → Str) : Option Str → Str → Str
  | none, [] => []
  | some acc, [] => '[' :: acc.reverse
  | none, c :: rest =>
      if c = '[' then pySubFrom f (some []) rest
      else c :: pySubFrom f none rest
  | some acc, c :: rest =>
      if c = ']' then
        if acc.isEmpty then '[' :: ']' :: pySubFrom f none rest
        else f acc.reverse ++ pySubFrom f none rest
      else pySubFrom f (some (c :: acc)) rest

/-- PLACEHOLDER_PATTERN.sub(f, s). -/
def pySub (f : Str → Str) (s : Str) : Str := pySubFrom f none s

/-- The interior texts of all matches, in order (re.finditer). -/
def phNames (s : Str) : List Str :=
  flatMapL (fun seg => match seg with
    | Seg.lit _ => []
    | Seg.ph inner => [inner]) (scanSegs s)

/-- A .docx document as the app consumes it: the body paragraph texts, and
the tables, each a list of rows, each row a list of cells, each cell a list
of paragraph texts. -/
structure Doc : Type where
  paragraphs : List Str
  tables : List (List (List (List Str)))
deriving DecidableEq, Repr

/-- iter_all_paragraphs: body paragraphs, then every table-cell paragraph in
table/row/cell order. -/
def iter_all_paragraphs (d : Doc) : List Str :=
  d.paragraphs ++
    flatMapL (fun table => flatMapL (fun row => flatMapL (fun cell => cell) row) table) d.tables

/-- Append a trimmed name if it is nonempty and not seen before (the
`seen` set of the source is the set of names already in the list). -/
def insName (acc : List Str) (n : Str) : List Str :=
  if n ≠ [] ∧ n ∉ acc then acc ++ [n] else acc

/-- One paragraph of collect_placeholders: fold its matches into the list. -/
def collectStep (acc : List Str) (t : Str) : List Str :=
  (phNames t).foldl (fun a i => insName a (pyStrip i)) acc

/-- collect_placeholders: unique trimmed names in first-seen order. -/
def collect_placeholders (d : Doc) : List Str :=
  (iter_all_paragraphs d).foldl collectStep []

/-- The substitute closure of apply_values: a matched token is replaced by
its value when the trimmed interior is a key, else kept verbatim
(match.group(0)). -/
def substitute (values : List (Str × Str)) (inner : Str) : Str :=
  (dictGet values (pyStrip inner)).getD ('[' :: (inner ++ [']']))

/-- apply_values: rewrite every paragraph text (body and table cells) by the
pattern substitution.  (The source only rewrites a paragraph whose text
changed, which is the identity on texts, and funnels the new text through
the first run; at text level both are this map.) -/
def apply_values (d : Doc) (values : List (Str × Str)) : Doc :=
  { paragraphs := d.paragraphs.map (fun t => pySub (substitute values) t),
    tables := d.tables.map (fun table => table.map (fun row =>
      row.map (fun cell => cell.map (fun t => pySub (substitute values) t)))) }

/-- Truthiness of the optional values dict (`if values:`): None and the
empty dict are falsy. -/
def dictTruthy : Option (List (Str × Str)) → Bool
  | none => false
  | some d => ! d.isEmpty

/-- The lambda of document_to_html: a match whose trimmed name is absent
from the mapping becomes a red highlighted span around the escaped token;
a present name becomes its escaped resolved value. -/
def highlightSub (values : List (Str × Str)) (inner : Str) : Str :=
  if ! dictContains values (pyStrip inner) then
    "<span style=\"color: red;\">".toList ++ htmlEscape ('[' :: (inner ++ [']']))
      ++ "</span>".toList
  else
    htmlEscape ((dictGet values (pyStrip inner)).getD ('[' :: (inner ++ [']'])))

/-- The per-text rendering of document_to_html: with a truthy mapping, run
the substitution with the highlight lambda; otherwise escape the whole
text. -/
def renderContent (values : Option (List (Str × Str))) (t : Str) : Str :=
  if dictTruthy values then pySub (highlightSub (values.getD [])) t
  else htmlEscape t

/-- Python sep.join(parts). -/
def joinBy (sep : Str) : List Str → Str
  | [] => []
  | [p] => p
  | p :: ps => p ++ sep ++ joinBy sep ps

/-- document_to_html: body paragraphs as p-elements (skipping blank
renderings), then each table as a table element of rows of cells, cell
paragraphs joined with a line break; empty output becomes the
document-is-empty fragment. -/
def document_to_html (d : Doc) (values : Option (List (Str × Str))) : Str :=
  let parts : List Str :=
    (d.paragraphs.filterMap (fun p =>
      let content := renderContent values p
      if pyStrip content ≠ [] then some ("<p>".toList ++ content ++ "</p>".toList)
      else none))
    ++ flatMapL (fun table =>
        ["<table class=\"doc-table\">".toList]
        ++ flatMapL (fun row =>
            ["<tr>".toList]
            ++ row.map (fun cell =>
                "<td>".toList
                ++ joinBy "<br/>".toList (cell.filterMap (fun p =>
                    let tx := renderContent values p
                    if pyStrip tx ≠ [] then some tx else none))
                ++ "</td>".toList)
            ++ ["</tr>".toList]) table
        ++ ["</table>".toList]) d.tables
  let joined := flatMapL (fun part => part) parts
  if joined.isEmpty then "<p><em>Document is empty.</em></p>".toList else joined

/-- get_full_doc_text: all paragraph texts whose strip is nonempty, joined
with a blank line. -/
def get_full_doc_text (d : Doc) : Str :=
  joinBy ['\n', '\n'] ((iter_all_paragraphs d).filter (fun t => !(pyStrip t).isEmpty))

/-- Python s.split on a blank-line separator: leftmost non-overlapping
occurrences of two newlines. -/
def splitNN : Str → List Str
  | [] => [[]]
  | [c] => [[c]]
  | c :: d :: rest =>
    if c = '\n' ∧ d = '\n' then
      [] :: splitNN rest
    else
      match splitNN (d :: rest) with
      | [] => [[c]]
      | h :: t => (c :: h) :: t

/-- Whether a text contains a blank-line separator. -/
def hasNN : Str → Bool
  | [] => false
  | [_] => false
  | c :: d :: rest => if c = '\n' ∧ d = '\n' then true else hasNN (d :: rest)

/-- get_ai_edit: ask the generative service; on success the stripped reply,
on failure fall back to the original document text. -/
def get_ai_edit (ai : Str → Str → Option Str) (doc_text user_request : Str) : Str :=
  match ai doc_text user_request with
  | some t => pyStrip t
  | none => doc_text

/-- apply_ai_edits: clear the whole body (paragraphs and tables), split the
edited text on blank lines, and add one stripped paragraph per nonblank
segment. -/
def apply_ai_edits (d : Doc) (edited_text : Str) : Doc :=
  { paragraphs := (splitNN edited_text).filterMap (fun p =>
      if !(pyStrip p).isEmpty then some (pyStrip p) else none),
    tables := [] }

/-- One stored session: the document, the placeholder list frozen at
upload, the collected values, and the pending placeholder. -/
structure Session : Type where
  doc : Doc
  placeholders : List Str
  values : List (Str × Str)
  pending : Option Str
deriving DecidableEq, Repr

/-- The JSON body of a /chat request (session id resolved). -/
structure ChatReq : Type where
  message : Str
  fill_all : Option (List (Str × Str))
  start : Bool
  edit_mode : Bool
deriving DecidableEq, Repr

/-- The observable part of a /chat response: done flag, filled keys, and
the reported pending placeholder. -/
structure ChatResp : Type where
  done : Bool
  filled : List Str
  pending : Option Str
deriving DecidableEq, Repr

/-- Truthiness of `fill_all` (`if fill_all:`): absent or empty is falsy. -/
def fillAllTruthy : Option (List (Str × Str)) → Bool
  | none => false
  | some l => ! l.isEmpty

/-- Truthiness of `pending` (`if pending and ...`). -/
def pendingTruthy : Option Str → Bool
  | none => false
  | some p => ! p.isEmpty

/-- The /chat handler: fill_all first, then start, then edit mode with a
nonempty message, then an answer to the pending placeholder, else the idle
notice.  Returns the updated session and the response. -/
def chat (ai : Str → Str → Option Str) (state : Session) (payload : ChatReq) :
    Session × ChatResp :=
  let message := pyStrip payload.message
  if fillAllTruthy payload.fill_all then
    let fa := payload.fill_all.getD []
    let values2 := dictUpdate state.values fa
    if (state.placeholders.filter (fun p => ! dictContains values2 p)).isEmpty then
      ({ state with values := values2 },
       { done := true, filled := dictKeys values2, pending := none })
    else
      let next := (state.placeholders.filter (fun p => ! dictContains values2 p)).headD []
      ({ state with values := values2, pending := some next },
       { done := false, filled := dictKeys values2, pending := some next })
  else if payload.start then
    match state.placeholders.filter (fun p => ! dictContains state.values p) with
    | [] => (state, { done := true, filled := dictKeys state.values, pending := none })
    | next :: _ =>
        ({ state with pending := some next },
         { done := false, filled := dictKeys state.values, pending := some next })
  else if payload.edit_mode && ! message.isEmpty then
    let edited := get_ai_edit ai (get_full_doc_text state.doc) message
    ({ state with doc := apply_ai_edits state.doc edited },
     { done := false, filled := dictKeys state.values, pending := state.pending })
  else if pendingTruthy state.pending && ! message.isEmpty then
    let p := state.pending.getD []
    let values2 := dictSet state.values p message
    match state.placeholders.filter (fun q => ! dictContains values2 q) with
    | [] =>
        ({ state with values := values2, pending := none },
         { done := true, filled := dictKeys values2, pending := none })
    | next :: _ =>
        ({ state with values := values2, pending := some next },
         { done := false, filled := dictKeys values2, pending := some next })
  else
    (state, { done := false, filled := dictKeys state.values, pending := state.pending })

/-- The session created by /upload. -/
def uploadSession (d : Doc) : Session :=
  { doc := d, placeholders := collect_placeholders d, values := [], pending := none }

/-- /preview: render the stored document with the stored values. -/
def preview (s : Session) : Str := document_to_html s.doc (some s.values)

/-- A start request. -/
def startReq : ChatReq :=
  { message := [], fill_all := none, start := true, edit_mode := false }

/-- A plain answer request. -/
def answerReq (m : Str) : ChatReq :=
  { message := m, fill_all := none, start := false, edit_mode := false }

/-- A service oracle that always fails. -/
def aiNone : Str → Str → Option Str := fun _ _ => none

/-- Run a sequence of chat requests from a session; the response is the one
of the last request (the initial placeholder response is never returned for
a nonempty sequence). -/
def runChat (ai : Str → Str → Option Str) (s : Session) (reqs : List ChatReq) :
    Session × ChatResp :=
  reqs.foldl (fun acc r => chat ai acc.1 r)
    (s, { done := false, filled := dictKeys s.values, pending := s.pending })

/-- Spec-level deduplication: keep each name's first occurrence, in order. -/
def firstSeenDedup : List Str → List Str
  | [] => []
  | x :: xs => x :: firstSeenDedup (xs.filter (fun y => y ≠ x))
termination_by l => l.length
decreasing_by
  simp only [List.length_cons]
  exact Nat.lt_succ_of_le (List.length_filter_le _ _)

/-- The claim-stated per-text rendering with a mapping (claim C3's words):
placeholder occurrences rendered as the code does, but non-placeholder text
escaped normally. -/
def specRenderContent (values : List (Str × Str)) (t : Str) : Str :=
  flatMapL (fun seg => match seg with
    | Seg.lit c => htmlEscape [c]
    | Seg.ph inner => highlightSub values inner) (scanSegs t)

/-- The renderer restricted to the claim-stated no-mapping behavior: every
paragraph text is escaped plainly and no highlight span is produced. -/
def htmlPlainRender (d : Doc) : Str :=
  let parts : List Str :=
    (d.paragraphs.filterMap (fun p =>
      let content := htmlEscape p
      if pyStrip content ≠ [] then some ("<p>".toList ++ content ++ "</p>".toList)
      else none))
    ++ flatMapL (fun table =>
        ["<table class=\"doc-table\">".toList]
        ++ flatMapL (fun row =>
            ["<tr>".toList]
            ++ row.map (fun cell =>
                "<td>".toList
                ++ joinBy "<br/>".toList (cell.filterMap (fun p =>
                    let tx := htmlEscape p
                    if pyStrip tx ≠ [] then some tx else none))
                ++ "</td>".toList)
            ++ ["</tr>".toList]) table
        ++ ["</table>".toList]) d.tables
  let joined := flatMapL (fun part => part) parts
  if joined.isEmpty then "<p><em>Document is empty.</em></p>".toList else joined

/-- The five transitions of the chat state machine. -/
inductive ChatMove : Type where
  | fillAll
  | start
  | edit
  | answer
  | idle
deriving DecidableEq, Repr

/-- The dispatch precedence as the claim states it: a truthy fill_all map
first, otherwise start, otherwise edit mode with a nonempty message,
otherwise an answer when a pending placeholder exists and the message is
nonempty, otherwise idle. -/
def chatAction (state : Session) (payload : ChatReq) : ChatMove :=
  if fillAllTruthy payload.fill_all then ChatMove.fillAll
  else if payload.start then ChatMove.start
  else if payload.edit_mode && !(pyStrip payload.message).isEmpty then ChatMove.edit
  else if pendingTruthy state.pending && !(pyStrip payload.message).isEmpty then ChatMove.answer
  else ChatMove.idle

/-- The fill_all branch of the handler, in isolation. -/
def fillAllStep (state : Session) (fa : List (Str × Str)) : Session × ChatResp :=
  let values2 := dictUpdate state.values fa
  if (state.placeholders.filter (fun p => ! dictContains values2 p)).isEmpty then
    ({ state with values := values2 },
     { done := true, filled := dictKeys values2, pending := none })
  else
    let next := (state.placeholders.filter (fun p => ! dictContains values2 p)).headD []
    ({ state with values := values2, pending := some next },
     { done := false, filled := dictKeys values2, pending := some next })

/-- The start branch of the handler, in isolation. -/
def startStep (state : Session) : Session × ChatResp :=
  match state.placeholders.filter (fun p => ! dictContains state.values p) with
  | [] => (state, { done := true, filled := dictKeys state.values, pending := none })
  | next :: _ =>
      ({ state with pending := some next },
       { done := false, filled := dictKeys state.values, pending := some next })

/-- The edit-mode branch of the handler, in isolation. -/
def editStep (ai : Str → Str → Option Str) (state : Session) (message : Str) :
    Session × ChatResp :=
  let edited := get_ai_edit ai (get_full_doc_text state.doc) message
  ({ state with doc := apply_ai_edits state.doc edited },
   { done := false, filled := dictKeys state.values, pending := state.pending })

/-- The answer branch of the handler, in isolation. -/
def answerStep (state : Session) (message : Str) : Session × ChatResp :=
  let p := state.pending.getD []
  let values2 := dictSet state.values p message
  match state.placeholders.filter (fun q => ! dictContains values2 q) with
  | [] =>
      ({ state with values := values2, pending := none },
       { done := true, filled := dictKeys values2, pending := none })
  | next :: _ =>
      ({ state with values := values2, pending := some next },
       { done := false, filled := dictKeys values2, pending := some next })

/-- The idle branch of the handler, in isolation. -/
def idleStep (state : Session) : Session × ChatResp :=
  (state, { done := false, filled := dictKeys state.values, pending := state.pending })

/-- The dispatch of the whole handler through the five steps. -/
def dispatchChat (ai : Str → Str → Option Str) (state : Session) (payload : ChatReq) :
    Session × ChatResp :=
  match chatAction state payload with
  | ChatMove.fillAll => fillAllStep state (payload.fill_all.getD [])
  | ChatMove.start => startStep state
  | ChatMove.edit => editStep ai state (pyStrip payload.message)
  | ChatMove.answer => answerStep state (pyStrip payload.message)
  | ChatMove.idle => idleStep state

/-- Membership in a flatMapL image. -/
theorem mem_flatMapL {α β : Type} (f : α → List β) (l : List α) (b : β) :
    b ∈ flatMapL f l ↔ ∃ a ∈ l, b ∈ f a := by
  induction l with
  | nil => simp [flatMapL]
  | cons a l ih => simp [flatMapL, ih]

/-- flatMapL distributes over append. -/
theorem flatMapL_append {α β : Type} (f : α → List β) (l1 l2 : List α) :
    flatMapL f (l1 ++ l2) = flatMapL f l1 ++ flatMapL f l2 := by
  induction l1 with
  | nil => rfl
  | cons a l ih => simp [flatMapL, ih]

/-- A substitution function applied over literal segments is the identity. -/
theorem flatMapL_map_lit (f : Str → Str) (l : Str) :
    flatMapL (fun seg => match seg with
      | Seg.lit c => [c]
      | Seg.ph i => f i) (l.map Seg.lit) = l := by
  induction l with
  | nil => rfl
  | cons c l ih => simp [flatMapL, ih]

/-- segText flattened over literal segments is the identity. -/
theorem flatMapL_segText_map_lit (l : Str) :
    flatMapL segText (l.map Seg.lit) = l := by
  induction l with
  | nil => rfl
  | cons c l ih => simp [flatMapL, segText, ih]

/-- The substitution pass equals the per-match rendering of the
segmentation: every match interior goes through `f`, every literal
character stays. -/
theorem pySubFrom_flat (f : Str → Str) :
    ∀ (s : Str) (st : Option Str),
      pySubFrom f st s = flatMapL (fun seg => match seg with
        | Seg.lit c => [c]
        | Seg.ph i => f i) (scanFrom st s) := by
  intro s
  induction s with
  | nil =>
    intro st
    cases st with
    | none => rfl
    | some acc =>
      exact congrArg (fun t => '[' :: t) (flatMapL_map_lit f acc.reverse).symm
  | cons c rest ih =>
    intro st
    cases st with
    | none =>
      by_cases h : c = '['
      · simp [pySubFrom, scanFrom, h, ih]
      · simp [pySubFrom, scanFrom, h, flatMapL, ih]
    | some acc =>
      by_cases h : c = ']'
      · by_cases h2 : acc.isEmpty
        · simp [pySubFrom, scanFrom, h, h2, flatMapL, ih]
        · simp [pySubFrom, scanFrom, h, h2, flatMapL, ih]
      · simp [pySubFrom, scanFrom, h, ih]

/-- pySub is the per-match rendering of scanSegs. -/
theorem pySub_flat (f : Str → Str) (s : Str) :
    pySub f s = flatMapL (fun seg => match seg with
      | Seg.lit c => [c]
      | Seg.ph i => f i) (scanSegs s) :=
  pySubFrom_flat f s none

/-- Flattening the scan of a text recovers the text (together with the
bracket prefix of an open scanning state). -/
theorem segsText_scanFrom :
    ∀ (s : Str) (st : Option Str),
      segsText (scanFrom st s) =
        (match st with
         | none => ([] : Str)
         | some acc => '[' :: acc.reverse) ++ s := by
  intro s
  induction s with
  | nil =>
    intro st
    cases st with
    | none => rfl
    | some acc =>
      have h1 := flatMapL_segText_map_lit acc.reverse
      show ('[' : Char) :: flatMapL segText (acc.reverse.map Seg.lit) = ('[' :: acc.reverse) ++ []
      rw [h1, List.append_nil]
  | cons c rest ih =>
    intro st
    cases st with
    | none =>
      by_cases h : c = '['
      · have h2 := ih (some [])
        simp only [segsText] at h2 ⊢
        simp [scanFrom, h, h2]
      · have h2 := ih none
        simp only [segsText] at h2 ⊢
        simp [scanFrom, flatMapL, segText, h, h2]
    | some acc =>
      by_cases h : c = ']'
      · by_cases h2 : acc.isEmpty
        · have hacc : acc = [] := List.isEmpty_iff.mp h2
          have h3 := ih none
          simp only [segsText] at h3 ⊢
          simp [scanFrom, flatMapL, segText, h, h2, hacc, h3]
        · have h3 := ih none
          simp only [segsText] at h3 ⊢
          simp [scanFrom, flatMapL, segText, h, h2, h3]
      · have h3 := ih (some (c :: acc))
        simp only [segsText] at h3 ⊢
        simp [scanFrom, h, h3]

/-- Flattening the segmentation of a text recovers the text. -/
theorem segsText_scanSegs (s : Str) : segsText (scanSegs s) = s := by
  simpa using segsText_scanFrom s none

/-- dictContains is membership in the key list. -/
theorem dictContains_iff_mem (d : List (Str × Str)) (k : Str) :
    dictContains d k = true ↔ k ∈ dictKeys d := by
  induction d with
  | nil => simp [dictContains, dictGet, dictKeys]
  | cons kv rest ih =>
    by_cases h : kv.1 = k
    · simp [dictContains, dictGet, dictKeys, h]
    · simp only [dictContains, dictGet, dictKeys] at ih ⊢
      simp [h, ih, List.mem_cons]
      intro e
      exact absurd e.symm h

/-- Keys after d[k] = v when k is a fresh key. -/
theorem dictKeys_dictSet_not_mem (d : List (Str × Str)) (k v : Str)
    (h : k ∉ dictKeys d) : dictKeys (dictSet d k v) = dictKeys d ++ [k] := by
  induction d with
  | nil => simp [dictSet, dictKeys]
  | cons kv rest ih =>
    have h1 : ¬ kv.1 = k := by
      intro e
      exact h (by simp [dictKeys, e])
    have h2 : k ∉ dictKeys rest := by
      intro e
      exact h (by simp [dictKeys] at e ⊢; exact Or.inr e)
    simp only [dictKeys] at ih ⊢
    simp [dictSet, h1]
    exact ih h2

/-- Key membership after d[k] = v. -/
theorem dictContains_dictSet (d : List (Str × Str)) (k v q : Str) :
    dictContains (dictSet d k v) q = (decide (k = q) || dictContains d q) := by
  induction d with
  | nil =>
    by_cases h : k = q
    · simp [dictSet, dictContains, dictGet, h]
    · simp [dictSet, dictContains, dictGet, h]
  | cons kv rest ih =>
    simp only [dictSet]
    by_cases h : kv.1 = k
    · rw [if_pos h]
      by_cases h2 : kv.1 = q
      · have h3 : k = q := by rw [← h, h2]
        simp [dictContains, dictGet, h2, h3]
      · have h3 : ¬ k = q := fun e => h2 (by rw [h, e])
        simp [dictContains, dictGet, h2, h3]
    · rw [if_neg h]
      by_cases h2 : kv.1 = q
      · simp [dictContains, dictGet, h2]
      · simp only [dictContains, dictGet, if_neg h2]
        simp only [dictContains] at ih
        exact ih

/-- dict.update never removes a key. -/
theorem dictContains_dictUpdate_left (fa : List (Str × Str)) :
    ∀ (d : List (Str × Str)) (k : Str), dictContains d k = true →
      dictContains (dictUpdate d fa) k = true := by
  induction fa with
  | nil => intro d k h; exact h
  | cons kv rest ih =>
    intro d k h
    have h1 : dictContains (dictSet d kv.1 kv.2) k = true := by
      rw [dictContains_dictSet]; simp [h]
    simp only [dictUpdate, List.foldl_cons]
    exact ih _ _ h1

/-- A key of the update map is a key afterward. -/
theorem dictContains_dictUpdate_right (fa : List (Str × Str)) :
    ∀ (d : List (Str × Str)) (k : Str), k ∈ dictKeys fa →
      dictContains (dictUpdate d fa) k = true := by
  induction fa with
  | nil => intro d k h; simp [dictKeys] at h
  | cons kv rest ih =>
    intro d k h
    simp only [dictKeys, List.map_cons, List.mem_cons] at h
    rcases h with h | h
    · have hc : dictContains (dictSet d kv.1 kv.2) k = true := by
        rw [dictContains_dictSet]; simp [h]
      simp only [dictUpdate, List.foldl_cons]
      exact dictContains_dictUpdate_left rest _ _ hc
    · simp only [dictUpdate, List.foldl_cons]
      exact ih _ _ h

/-- collect_placeholders folds insName over the flattened match list. -/
theorem collect_foldl (paras : List Str) :
    ∀ acc, paras.foldl collectStep acc =
      (flatMapL phNames paras).foldl (fun a i => insName a (pyStrip i)) acc := by
  induction paras with
  | nil => intro acc; rfl
  | cons p ps ih =>
    intro acc
    rw [List.foldl_cons, ih (collectStep acc p)]
    simp only [flatMapL, List.foldl_append]
    rfl

/-- Folding insName is the first-seen deduplication of the nonempty names
not already in the accumulator, appended to the accumulator. -/
theorem foldl_insName (L : List Str) :
    ∀ acc, L.foldl insName acc =
      acc ++ firstSeenDedup (L.filter (fun n => decide (n ≠ []) && decide (n ∉ acc))) := by
  induction L with
  | nil => intro acc; simp [firstSeenDedup]
  | cons n L2 ih =>
    intro acc
    by_cases h : n ≠ [] ∧ n ∉ acc
    · have hin : insName acc n = acc ++ [n] := by simp [insName, h]
      have hp : (decide (n ≠ []) && decide (n ∉ acc)) = true := by
        simp [h.1, h.2]
      rw [List.foldl_cons, hin, ih]
      have hflt : L2.filter (fun m => decide (m ≠ []) && decide (m ∉ acc ++ [n])) =
          (L2.filter (fun m => decide (m ≠ []) && decide (m ∉ acc))).filter
            (fun m => decide (m ≠ n)) := by
        rw [List.filter_filter]
        apply List.filter_congr
        intro a _
        by_cases h1 : a = []
        · simp [h1]
        · by_cases h2 : a = n
          · simp [h1, h2, List.mem_append]
          · by_cases h3 : a ∈ acc
            · simp [h1, h2, h3, List.mem_append]
            · simp [h1, h2, h3, List.mem_append]
      rw [hflt]
      have hfe : (n :: L2).filter (fun m => decide (m ≠ []) && decide (m ∉ acc)) =
          n :: L2.filter (fun m => decide (m ≠ []) && decide (m ∉ acc)) := by
        rw [List.filter_cons, if_pos hp]
      rw [hfe, firstSeenDedup]
      simp
    · have hin : insName acc n = acc := by simp [insName, h]
      have hp : (decide (n ≠ []) && decide (n ∉ acc)) = false := by
        rcases not_and_or.mp h with h1 | h1
        · have h2 : n = [] := not_not.mp h1
          simp [h2]
        · have h2 : n ∈ acc := not_not.mp h1
          simp [h2]
      rw [List.foldl_cons, hin, ih]
      have hcne : ¬ ((decide (n ≠ []) && decide (n ∉ acc)) = true) := by
        rw [hp]; exact Bool.false_ne_true
      have hfe : (n :: L2).filter (fun m => decide (m ≠ []) && decide (m ∉ acc)) =
          L2.filter (fun m => decide (m ≠ []) && decide (m ∉ acc)) := by
        rw [List.filter_cons, if_neg hcne]
      rw [hfe]

/-- collect_placeholders is the spec-level first-seen deduplication of the
nonempty trimmed match names of all paragraphs in traversal order. -/
theorem collect_spec (d : Doc) :
    collect_placeholders d =
      firstSeenDedup (((flatMapL phNames (iter_all_paragraphs d)).map pyStrip).filter
        (fun n => n ≠ [])) := by
  unfold collect_placeholders
  rw [collect_foldl]
  have h1 : (flatMapL phNames (iter_all_paragraphs d)).foldl
      (fun a i => insName a (pyStrip i)) [] =
      ((flatMapL phNames (iter_all_paragraphs d)).map pyStrip).foldl insName [] := by
    rw [List.foldl_map]
  rw [h1, foldl_insName]
  simp only [List.nil_append]
  congr 1
  apply List.filter_congr
  intro a _
  simp

/-- Everything in the deduplication was in the list. -/
theorem mem_firstSeenDedup : ∀ (l : List Str) (a : Str), a ∈ firstSeenDedup l → a ∈ l := by
  intro l
  induction l using firstSeenDedup.induct with
  | case1 => intro a h; simp [firstSeenDedup] at h
  | case2 x xs ih =>
    intro a h
    rw [firstSeenDedup] at h
    rcases List.mem_cons.mp h with h | h
    · simp [h]
    · have h2 := ih a h
      have h3 := List.mem_filter.mp h2
      exact List.mem_cons_of_mem _ h3.1

/-- The deduplication has no duplicates. -/
theorem firstSeenDedup_nodup : ∀ (l : List Str), (firstSeenDedup l).Nodup := by
  intro l
  induction l using firstSeenDedup.induct with
  | case1 => simp [firstSeenDedup]
  | case2 x xs ih =>
    rw [firstSeenDedup, List.nodup_cons]
    refine ⟨?_, ih⟩
    intro hmem
    have h2 := List.mem_filter.mp (mem_firstSeenDedup _ _ hmem)
    simp at h2

/-- Collected placeholder names are nonempty strings. -/
theorem collect_placeholders_ne_nil (d : Doc) :
    ∀ p ∈ collect_placeholders d, p ≠ [] := by
  intro p hp
  rw [collect_spec] at hp
  have h1 := mem_firstSeenDedup _ _ hp
  have h2 := List.mem_filter.mp h1
  simpa using h2.2

/-- Collected placeholders are pairwise distinct. -/
theorem collect_placeholders_nodup (d : Doc) : (collect_placeholders d).Nodup := by
  rw [collect_spec]; exact firstSeenDedup_nodup _

/-- Defining equation of hasNN on two leading characters. -/
theorem hasNN_cons_cons (c d : Char) (rest : Str) :
    hasNN (c :: d :: rest) =
      if c = '\n' ∧ d = '\n' then true else hasNN (d :: rest) := rfl

/-- Defining equation of splitNN on two leading characters. -/
theorem splitNN_cons_cons (c d : Char) (rest : Str) :
    splitNN (c :: d :: rest) =
      if c = '\n' ∧ d = '\n' then [] :: splitNN rest
      else match splitNN (d :: rest) with
        | [] => [[c]]
        | h :: t => (c :: h) :: t := rfl

/-- A text whose extension is blank-line free is blank-line free. -/
theorem hasNN_of_append (x : Str) :
    ∀ (p : Str), hasNN (p ++ x) = false → hasNN p = false := by
  intro p
  induction p with
  | nil => intro _; rfl
  | cons c tail ih =>
    intro h
    cases tail with
    | nil => rfl
    | cons d rest =>
      simp only [List.cons_append] at h
      rw [hasNN_cons_cons] at h ⊢
      by_cases hnn : c = '\n' ∧ d = '\n'
      · rw [if_pos hnn] at h; simp at h
      · rw [if_neg hnn] at h ⊢
        exact ih (by simpa using h)

/-- head? of an append with a nonempty left part. -/
theorem head?_append_left {α : Type} (l l2 : List α) (h : l ≠ []) :
    (l ++ l2).head? = l.head? := by
  cases l with
  | nil => exact absurd rfl h
  | cons a t => rfl

/-- dropWhile only exposes a head that fails the predicate. -/
theorem head?_dropWhile (p : Char → Bool) :
    ∀ (l : Str) (c : Char), (l.dropWhile p).head? = some c → p c = false := by
  intro l
  induction l with
  | nil => intro c h; simp [List.dropWhile] at h
  | cons a t ih =>
    intro c h
    by_cases hp : p a = true
    · rw [List.dropWhile_cons, if_pos hp] at h
      exact ih c h
    · rw [List.dropWhile_cons, if_neg hp] at h
      have h2 : a = c := by simpa using h
      subst h2
      revert hp
      cases p a <;> simp

/-- A string equal to its own strip does not end in whitespace. -/
theorem strip_fix_last (p : Str) (hs : pyStrip p = p) :
    ∀ c, p.reverse.head? = some c → isPySpace c = false := by
  intro c hc
  have h1 : (p.dropWhile isPySpace).reverse.dropWhile isPySpace = p.reverse := by
    have h2 := congrArg List.reverse hs
    rw [pyStrip, List.reverse_reverse] at h2
    exact h2
  rw [← h1] at hc
  exact head?_dropWhile isPySpace _ c hc

/-- Appending a newline to a blank-line-free text with no trailing newline
keeps it blank-line free. -/
theorem hasNN_append_nl :
    ∀ (p : Str), hasNN p = false →
      (∀ c, p.reverse.head? = some c → ¬ c = '\n') →
      hasNN (p ++ ['\n']) = false := by
  intro p
  induction p with
  | nil => intro _ _; rfl
  | cons c tail ih =>
    intro h hl
    cases tail with
    | nil =>
      have hc : ¬ c = '\n' := hl c (by simp)
      simp only [List.cons_append, List.nil_append]
      rw [hasNN_cons_cons, if_neg (fun hh => hc hh.1)]
      rfl
    | cons d rest =>
      rw [hasNN_cons_cons] at h
      by_cases hnn : c = '\n' ∧ d = '\n'
      · rw [if_pos hnn] at h; simp at h
      · rw [if_neg hnn] at h
        have hl2 : ∀ e, (d :: rest).reverse.head? = some e → ¬ e = '\n' := by
          intro e he
          refine hl e ?_
          rw [List.reverse_cons, head?_append_left _ _ (by simp)]
          exact he
        have h3 := ih h hl2
        simp only [List.cons_append] at h3 ⊢
        rw [hasNN_cons_cons, if_neg hnn]
        exact h3

/-- splitNN of a blank-line-free text is the single segment. -/
theorem splitNN_single :
    ∀ (p : Str), hasNN p = false → splitNN p = [p] := by
  intro p
  induction p with
  | nil => intro _; rfl
  | cons c tail ih =>
    intro h
    cases tail with
    | nil => rfl
    | cons d rest =>
      rw [hasNN_cons_cons] at h
      by_cases hnn : c = '\n' ∧ d = '\n'
      · rw [if_pos hnn] at h; simp at h
      · rw [if_neg hnn] at h
        rw [splitNN_cons_cons, if_neg hnn, ih h]

/-- Splitting a text that opens with a clean segment and a blank-line
separator. -/
theorem splitNN_sep :
    ∀ (p q : Str), hasNN (p ++ ['\n']) = false →
      splitNN (p ++ '\n' :: '\n' :: q) = p :: splitNN q := by
  intro p
  induction p with
  | nil =>
    intro q _
    simp only [List.nil_append]
    rw [splitNN_cons_cons, if_pos ⟨rfl, rfl⟩]
  | cons c tail ih =>
    intro q h
    cases tail with
    | nil =>
      have hc : ¬ (c = '\n' ∧ ('\n' : Char) = '\n') := by
        intro hh
        rw [List.singleton_append, hasNN_cons_cons, if_pos hh] at h
        simp at h
      have h0 : splitNN ('\n' :: '\n' :: q) = [] :: splitNN q := by
        rw [splitNN_cons_cons, if_pos ⟨rfl, rfl⟩]
      simp only [List.singleton_append, List.cons_append, List.nil_append]
      rw [splitNN_cons_cons, if_neg hc, h0]
    | cons d rest =>
      rw [List.cons_append, List.cons_append] at h
      rw [hasNN_cons_cons] at h
      by_cases hnn : c = '\n' ∧ d = '\n'
      · rw [if_pos hnn] at h; simp at h
      · rw [if_neg hnn] at h
        have h2 := ih q (by simpa using h)
        simp only [List.cons_append] at h2 ⊢
        rw [splitNN_cons_cons, if_neg hnn, h2]

/-- joinBy a blank line then splitNN is the identity on a nonempty list of
blank-line-free segments without trailing newlines. -/
theorem splitNN_joinBy :
    ∀ (ps : List Str), ps ≠ [] →
      (∀ p ∈ ps, hasNN (p ++ ['\n']) = false) →
      splitNN (joinBy ['\n', '\n'] ps) = ps := by
  intro ps
  induction ps with
  | nil => intro h _; exact absurd rfl h
  | cons p ps2 ih =>
    intro _ hall
    cases ps2 with
    | nil =>
      have h1 : hasNN p = false :=
        hasNN_of_append ['\n'] p (hall p (by simp))
      show splitNN p = [p]
      exact splitNN_single p h1
    | cons p2 ps3 =>
      have h1 := hall p (by simp)
      have h2 : joinBy ['\n', '\n'] (p :: p2 :: ps3) =
          p ++ '\n' :: '\n' :: joinBy ['\n', '\n'] (p2 :: ps3) := by
        show (p ++ ['\n', '\n']) ++ joinBy ['\n', '\n'] (p2 :: ps3) = _
        rw [List.append_assoc]
        rfl
      rw [h2, splitNN_sep _ _ h1,
        ih (by simp) (fun p3 hp3 => hall p3 (List.mem_cons_of_mem _ hp3))]

/-- Stripped nonempty paragraphs pass the filterMap of apply_ai_edits
unchanged. -/
theorem filterMap_strip_id :
    ∀ (l : List Str), (∀ p ∈ l, pyStrip p = p ∧ p ≠ []) →
      l.filterMap (fun p => if !(pyStrip p).isEmpty then some (pyStrip p) else none) = l := by
  intro l
  induction l with
  | nil => intro _; rfl
  | cons p l2 ih =>
    intro hall
    have h1 := hall p (by simp)
    have h2 : (pyStrip p).isEmpty = false := by
      rw [h1.1]
      cases hp : p with
      | nil => exact absurd hp h1.2
      | cons a t => rfl
    rw [List.filterMap_cons]
    simp only [h2, Bool.not_false, if_pos]
    rw [h1.1, ih (fun q hq => hall q (List.mem_cons_of_mem _ hq))]

/-- Stripped nonempty paragraphs pass the filter of get_full_doc_text
unchanged. -/
theorem filter_strip_id :
    ∀ (l : List Str), (∀ p ∈ l, pyStrip p = p ∧ p ≠ []) →
      l.filter (fun t => !(pyStrip t).isEmpty) = l := by
  intro l hall
  rw [List.filter_eq_self]
  intro a ha
  have h1 := hall a ha
  rw [h1.1]
  cases hp : a with
  | nil => exact absurd hp h1.2
  | cons x t => simp

/-- The failing-service edit round trip leaves a table-free document of
stripped, nonempty, blank-line-free paragraphs unchanged. -/
theorem ai_edit_fallback_id (d : Doc) (htab : d.tables = [])
    (hpar : ∀ p ∈ d.paragraphs, pyStrip p = p ∧ p ≠ [] ∧ hasNN p = false) :
    apply_ai_edits d (get_full_doc_text d) = d := by
  rcases d with ⟨ps, ts⟩
  simp only at htab hpar
  subst htab
  have hiter : iter_all_paragraphs (Doc.mk ps []) = ps := by
    simp [iter_all_paragraphs, flatMapL]
  have hfull : get_full_doc_text (Doc.mk ps []) = joinBy ['\n', '\n'] ps := by
    rw [get_full_doc_text, hiter, filter_strip_id ps
      (fun p hp => ⟨(hpar p hp).1, (hpar p hp).2.1⟩)]
  rw [apply_ai_edits, hfull]
  cases ps with
  | nil => rfl
  | cons p0 ps0 =>
    have hsplit : splitNN (joinBy ['\n', '\n'] (p0 :: ps0)) = p0 :: ps0 := by
      apply splitNN_joinBy _ (by simp)
      intro p hp
      have h1 := hpar p hp
      apply hasNN_append_nl p h1.2.2
      intro c hc he
      have h2 := strip_fix_last p h1.1 c hc
      rw [he] at h2
      simp [isPySpace] at h2
    rw [hsplit, filterMap_strip_id _ (fun p hp => ⟨(hpar p hp).1, (hpar p hp).2.1⟩)]

/-- A nonempty list is not isEmpty. -/
theorem isEmpty_false_of_ne {α : Type} (l : List α) (h : l ≠ []) : l.isEmpty = false := by
  cases l with
  | nil => exact absurd rfl h
  | cons a t => rfl

/-- A start request runs the start branch. -/
theorem chat_start_eq (ai : Str → Str → Option Str) (s : Session) :
    chat ai s startReq = startStep s := rfl

/-- A truthy fill_all request runs the fill_all branch. -/
theorem chat_fillAll_eq (ai : Str → Str → Option Str) (s : Session) (req : ChatReq)
    (fa : List (Str × Str)) (hfa : req.fill_all = some fa) (hne : fa ≠ []) :
    chat ai s req = fillAllStep s fa := by
  have h2 : fa.isEmpty = false := isEmpty_false_of_ne fa hne
  unfold chat fillAllStep
  rw [hfa]
  simp [fillAllTruthy, h2]

/-- An edit-mode request with a nonempty message, no truthy fill_all and no
start flag runs the edit branch. -/
theorem chat_edit_eq (ai : Str → Str → Option Str) (s : Session) (req : ChatReq)
    (hedit : req.edit_mode = true) (hm : pyStrip req.message ≠ [])
    (hfa : fillAllTruthy req.fill_all = false) (hstart : req.start = false) :
    chat ai s req = editStep ai s (pyStrip req.message) := by
  have h2 : (pyStrip req.message).isEmpty = false := isEmpty_false_of_ne _ hm
  simp [chat, editStep, hfa, hstart, hedit, h2]

/-- An answer request runs the answer branch when a nonempty pending
placeholder is stored. -/
theorem chat_answer_eq (ai : Str → Str → Option Str) (s : Session) (m : Str)
    (hpend : pendingTruthy s.pending = true) (hm : pyStrip m ≠ []) :
    chat ai s (answerReq m) = answerStep s (pyStrip m) := by
  have h2 : (pyStrip m).isEmpty = false := isEmpty_false_of_ne _ hm
  simp [chat, answerReq, answerStep, fillAllTruthy, hpend, h2]

/-- The handler is exactly the five-way dispatch with the claim-stated
precedence. -/
theorem chat_dispatch (ai : Str → Str → Option Str) (s : Session) (r : ChatReq) :
    chat ai s r = dispatchChat ai s r := by
  simp only [chat, dispatchChat, chatAction, fillAllStep, startStep, editStep,
    answerStep, idleStep]
  by_cases h1 : fillAllTruthy r.fill_all = true
  · simp [h1]
  · simp only [Bool.not_eq_true] at h1
    by_cases h2 : r.start = true
    · simp [h1, h2]
    · simp only [Bool.not_eq_true] at h2
      by_cases h3 : (r.edit_mode && !(pyStrip r.message).isEmpty) = true
      · simp [h1, h2, h3]
      · simp only [Bool.not_eq_true] at h3
        by_cases h4 : (pendingTruthy s.pending && !(pyStrip r.message).isEmpty) = true
        · simp [h1, h2, h3, h4]
        · simp only [Bool.not_eq_true] at h4
          simp [h1, h2, h3, h4]

/-- What the answer branch does when the pending placeholder is the first
of the remaining suffix: record the value, advance to the next remaining
placeholder, and report done exactly when none remains. -/
theorem answerStep_spec (s : Session) (m r : Str) (pre rest2 : List Str)
    (hplace : s.placeholders = pre ++ r :: rest2)
    (hnodup : (pre ++ r :: rest2).Nodup)
    (hkeys : dictKeys s.values = pre)
    (hpend : s.pending = some r) :
    answerStep s m =
      ({ s with values := dictSet s.values r m, pending := rest2.head? },
       { done := rest2.isEmpty, filled := pre ++ [r], pending := rest2.head? }) := by
  have hdisj : pre.Disjoint (r :: rest2) := (List.nodup_append.mp hnodup).2.2
  have hnr : (r :: rest2).Nodup := (List.nodup_append.mp hnodup).2.1
  have hrnotrest : r ∉ rest2 := (List.nodup_cons.mp hnr).1
  have hrpre : r ∉ pre := fun hin => hdisj hin (by simp)
  have hkeys2 : dictKeys (dictSet s.values r m) = pre ++ [r] := by
    rw [dictKeys_dictSet_not_mem _ _ _ (by rw [hkeys]; exact hrpre), hkeys]
  have hcont : ∀ q, dictContains (dictSet s.values r m) q = true ↔ q ∈ pre ++ [r] := by
    intro q
    rw [dictContains_iff_mem, hkeys2]
  have hrem : (pre ++ r :: rest2).filter
      (fun q => ! dictContains (dictSet s.values r m) q) = rest2 := by
    rw [List.filter_append]
    have hpre0 : pre.filter (fun q => ! dictContains (dictSet s.values r m) q) = [] := by
      rw [List.filter_eq_nil_iff]
      intro a ha
      have hc := (hcont a).mpr (List.mem_append_left _ ha)
      simp [hc]
    have hcr : dictContains (dictSet s.values r m) r = true := (hcont r).mpr (by simp)
    have hcons : (r :: rest2).filter (fun q => ! dictContains (dictSet s.values r m) q)
        = rest2 := by
      rw [List.filter_cons, if_neg (by simp [hcr])]
      rw [List.filter_eq_self]
      intro a ha
      have h1 : a ∉ pre := fun hp => hdisj hp (List.mem_cons_of_mem _ ha)
      have h2 : ¬ a = r := fun he => hrnotrest (he ▸ ha)
      have h3 : dictContains (dictSet s.values r m) a = false := by
        cases hb : dictContains (dictSet s.values r m) a with
        | false => rfl
        | true =>
          rcases List.mem_append.mp ((hcont a).mp hb) with h | h
          · exact absurd h h1
          · simp at h
            exact absurd h h2
      simp [h3]
    rw [hpre0, hcons, List.nil_append]
  simp only [answerStep, hpend, Option.getD_some]
  rw [hplace, hrem, hkeys2]
  cases rest2 with
  | nil => rfl
  | cons nx rest3 => rfl

/-- Running one nonempty answer per remaining placeholder, in discovery
order, ends with done reported and exactly all placeholders filled. -/
theorem run_answers (ai : Str → Str → Option Str) :
    ∀ (rest msgs pre : List Str) (s : Session) (r0 : ChatResp),
      s.placeholders = pre ++ rest →
      (pre ++ rest).Nodup →
      (∀ p ∈ pre ++ rest, p ≠ ([] : Str)) →
      dictKeys s.values = pre →
      s.pending = rest.head? →
      msgs.length = rest.length →
      (∀ m ∈ msgs, pyStrip m ≠ []) →
      rest ≠ [] →
      (((msgs.map answerReq).foldl (fun acc r => chat ai acc.1 r) (s, r0)).2.done = true ∧
       ((msgs.map answerReq).foldl (fun acc r => chat ai acc.1 r) (s, r0)).2.filled =
         pre ++ rest) := by
  intro rest
  induction rest with
  | nil =>
    intro msgs pre s r0 _ _ _ _ _ _ _ hne
    exact absurd rfl hne
  | cons r rest2 ih =>
    intro msgs pre s r0 hplace hnodup hnonnil hkeys hpend hlen hmsgs _
    cases msgs with
    | nil => simp at hlen
    | cons m msgs2 =>
      have hm := hmsgs m (by simp)
      have hrne : r ≠ [] := hnonnil r (by simp)
      have hpend2 : s.pending = some r := by rw [hpend]; rfl
      have hpt : pendingTruthy s.pending = true := by
        rw [hpend2]
        simp [pendingTruthy, isEmpty_false_of_ne r hrne]
      have hstep := chat_answer_eq ai s m hpt hm
      have hspec := answerStep_spec s (pyStrip m) r pre rest2 hplace hnodup hkeys hpend2
      have hdisj : pre.Disjoint (r :: rest2) := (List.nodup_append.mp hnodup).2.2
      have hrpre : r ∉ pre := fun hin => hdisj hin (by simp)
      have hkeys2 : dictKeys (dictSet s.values r (pyStrip m)) = pre ++ [r] := by
        rw [dictKeys_dictSet_not_mem _ _ _ (by rw [hkeys]; exact hrpre), hkeys]
      simp only [List.map_cons, List.foldl_cons]
      rw [hstep, hspec]
      cases rest2 with
      | nil =>
        cases msgs2 with
        | cons a b => simp at hlen
        | nil => simp
      | cons nx rest3 =>
        have hlen2 : msgs2.length = (nx :: rest3).length := by
          simpa using hlen
        have happ : pre ++ r :: nx :: rest3 = (pre ++ [r]) ++ nx :: rest3 := by
          simp
        have hres := ih msgs2 (pre ++ [r])
          ({ s with values := dictSet s.values r (pyStrip m), pending := (nx :: rest3).head? })
          ({ done := (nx :: rest3).isEmpty, filled := pre ++ [r],
             pending := (nx :: rest3).head? })
          (by simp only [hplace]; exact happ)
          (by rw [← happ]; exact hnodup)
          (by rw [← happ]; exact hnonnil)
          (by simpa using hkeys2)
          (by rfl)
          hlen2
          (fun m2 hm2 => hmsgs m2 (List.mem_cons_of_mem _ hm2))
          (by simp)
        rw [← happ] at hres
        exact hres

/-- A list with isEmpty false is not nil. -/
theorem ne_nil_of_isEmpty_false {α : Type} (l : List α) (h : l.isEmpty = false) :
    l ≠ [] := by
  intro he
  rw [he] at h
  simp at h

/-- Renderings that agree per text give the same document HTML. -/
theorem document_to_html_congr (d : Doc) (v1 v2 : Option (List (Str × Str)))
    (h : ∀ t, renderContent v1 t = renderContent v2 t) :
    document_to_html d v1 = document_to_html d v2 := by
  have h2 : renderContent v1 = renderContent v2 := funext h
  unfold document_to_html
  rw [h2]

/-- html escaping of one character never yields a raw tag opener. -/
theorem lt_not_mem_htmlEscape1 (a : Char) : '<' ∉ htmlEscape1 a := by
  intro hmem
  unfold htmlEscape1 at hmem
  split_ifs at hmem with h1 h2 h3 h4 h5
  · exact absurd hmem (by decide)
  · exact absurd hmem (by decide)
  · exact absurd hmem (by decide)
  · exact absurd hmem (by decide)
  · exact absurd hmem (by decide)
  · simp at hmem
    exact h2 hmem.symm

/-- C7: for every document the scanner returns the unique trimmed
bracket-token names in first-seen order across body paragraphs then
table-cell paragraphs, discarding names that are empty after trimming; and
scanning the example text yields exactly Name then Amount. -/
theorem c7_scanner_spec :
    (∀ d : Doc, collect_placeholders d =
      firstSeenDedup (((flatMapL phNames (iter_all_paragraphs d)).map pyStrip).filter
        (fun n => n ≠ []))) ∧
    collect_placeholders
      (Doc.mk ["Dear [Name], you owe [Amount]. [Amount] is due.".toList] []) =
      ["Name".toList, "Amount".toList] := by
  exact ⟨collect_spec, by decide⟩

/-- C8: the substitution engine replaces every placeholder occurrence whose
trimmed name is a key of the mapping with the mapped value and leaves
occurrences with absent names verbatim including the brackets; the
segmentation it replaces over flattens back to the input; and the example
substitution yields the stated text, also through apply_values. -/
theorem c8_substitution_spec :
    (∀ (values : List (Str × Str)) (t : Str),
      pySub (substitute values) t =
        flatMapL (fun seg => match seg with
          | Seg.lit c => [c]
          | Seg.ph inner =>
            match dictGet values (pyStrip inner) with
            | some v => v
            | none => '[' :: (inner ++ [']'])) (scanSegs t)) ∧
    (∀ t : Str, segsText (scanSegs t) = t) ∧
    pySub (substitute [("Name".toList, "Jo".toList)])
        "Dear [Name], you owe [Amount]. [Amount] is due.".toList =
      "Dear Jo, you owe [Amount]. [Amount] is due.".toList ∧
    (apply_values
        (Doc.mk ["Dear [Name], you owe [Amount]. [Amount] is due.".toList] [])
        [("Name".toList, "Jo".toList)]).paragraphs =
      ["Dear Jo, you owe [Amount]. [Amount] is due.".toList] := by
  refine ⟨?_, segsText_scanSegs, by decide, by decide⟩
  intro values t
  rw [pySub_flat]
  congr 1
  funext seg
  cases seg with
  | lit c => rfl
  | ph inner =>
    cases hd : dictGet values (pyStrip inner) with
    | none => simp [substitute, hd]
    | some v => simp [substitute, hd]

/-- C3 counterexample: rendering a text containing a literal less-than sign
with a truthy mapping leaves the non-placeholder text unescaped; the code
render differs from the claim-stated render that escapes non-placeholder
text, so the claim as stated is false at this input. -/
theorem c3_counterexample :
    renderContent (some [("N".toList, "Jo".toList)]) "<[N]".toList = "<Jo".toList ∧
    specRenderContent [("N".toList, "Jo".toList)] "<[N]".toList = "&lt;Jo".toList ∧
    document_to_html (Doc.mk ["<[N]".toList] [])
      (some [("N".toList, "Jo".toList)]) = "<p><Jo</p>".toList ∧
    "<Jo".toList ≠ "&lt;Jo".toList := by
  exact ⟨by decide, by decide, by decide, by decide⟩

/-- C3 (amended): with a truthy mapping, each placeholder occurrence whose
name is absent renders as a highlighted escaped span and each present one
as its escaped resolved value, while non-placeholder text passes through
unescaped; the segmentation flattens back to the text; and the claim's
example renders with Jo as plain text and each Amount occurrence inside a
highlight span. -/
theorem c3_render_spec (values : List (Str × Str)) (t : Str) (hv : values ≠ []) :
    renderContent (some values) t =
      flatMapL (fun seg => match seg with
        | Seg.lit c => [c]
        | Seg.ph inner => highlightSub values inner) (scanSegs t) ∧
    segsText (scanSegs t) = t ∧
    document_to_html
        (Doc.mk ["Dear [Name], you owe [Amount]. [Amount] is due.".toList] [])
        (some [("Name".toList, "Jo".toList)]) =
      ("<p>Dear Jo, you owe <span style=\"color: red;\">[Amount]</span>. " ++
       "<span style=\"color: red;\">[Amount]</span> is due.</p>").toList := by
  refine ⟨?_, segsText_scanSegs t, by decide⟩
  have h1 : dictTruthy (some values) = true := by
    simp [dictTruthy, isEmpty_false_of_ne values hv]
  have h2 := pySub_flat (highlightSub values) t
  simpa [renderContent, h1] using h2

/-- C3 witness: the amended statement instantiated at a concrete mapping
and text. -/
theorem c3_render_spec_witness :
    ([("N".toList, "Jo".toList)] : List (Str × Str)) ≠ [] ∧
    (renderContent (some [("N".toList, "Jo".toList)]) "a[N]b[X]c".toList =
      flatMapL (fun seg => match seg with
        | Seg.lit c => [c]
        | Seg.ph inner => highlightSub [("N".toList, "Jo".toList)] inner)
        (scanSegs "a[N]b[X]c".toList) ∧
     segsText (scanSegs "a[N]b[X]c".toList) = "a[N]b[X]c".toList ∧
     document_to_html
        (Doc.mk ["Dear [Name], you owe [Amount]. [Amount] is due.".toList] [])
        (some [("Name".toList, "Jo".toList)]) =
      ("<p>Dear Jo, you owe <span style=\"color: red;\">[Amount]</span>. " ++
       "<span style=\"color: red;\">[Amount]</span> is due.</p>").toList) :=
  ⟨by decide, c3_render_spec [("N".toList, "Jo".toList)] "a[N]b[X]c".toList (by decide)⟩

/-- C10: an empty supplied mapping takes the no-mapping branch: rendering
with the empty dict equals rendering with no mapping, both equal the
escape-only plain renderer (so no placeholder is rendered as a highlighted
span), the preview of a freshly uploaded session is that plain rendering,
and escaped text never contains a raw tag-opening character. -/
theorem c10_empty_values_plain :
    (∀ d : Doc, document_to_html d (some []) = document_to_html d none) ∧
    (∀ d : Doc, document_to_html d (some []) = htmlPlainRender d) ∧
    (∀ d : Doc, preview (uploadSession d) = htmlPlainRender d) ∧
    (∀ t : Str, '<' ∉ htmlEscape t) := by
  have hb : ∀ d : Doc, document_to_html d (some []) = document_to_html d none :=
    fun d => document_to_html_congr d (some []) none (fun t => rfl)
  have hp : ∀ d : Doc, document_to_html d (some []) = htmlPlainRender d := by
    intro d
    rw [hb d]
    rfl
  refine ⟨hb, hp, ?_, ?_⟩
  · intro d
    show document_to_html d (some []) = htmlPlainRender d
    exact hp d
  · intro t hmem
    rw [htmlEscape] at hmem
    obtain ⟨a, _, hmem2⟩ := (mem_flatMapL htmlEscape1 t '<').mp hmem
    exact lt_not_mem_htmlEscape1 a hmem2

/-- The start branch when nothing remains unfilled. -/
theorem startStep_spec_empty (s : Session)
    (h : s.placeholders.filter (fun p => ! dictContains s.values p) = []) :
    startStep s = (s, { done := true, filled := dictKeys s.values, pending := none }) := by
  unfold startStep
  rw [h]

/-- The start branch when placeholders remain unfilled. -/
theorem startStep_spec_cons (s : Session) (nx : Str) (rest : List Str)
    (h : s.placeholders.filter (fun p => ! dictContains s.values p) = nx :: rest) :
    startStep s =
      ({ s with pending := some nx },
       { done := false, filled := dictKeys s.values, pending := some nx }) := by
  unfold startStep
  rw [h]

/-- C9: the handler applies exactly one transition, with fixed precedence
fill_all, then start, then edit mode with a nonempty message, then answer
when a pending placeholder exists and the message is nonempty, then the
idle notice; in particular an edit-mode request with a nonempty message is
treated as an edit even while a placeholder is pending. -/
theorem c9_precedence :
    (∀ (ai : Str → Str → Option Str) (s : Session) (r : ChatReq),
      chat ai s r = dispatchChat ai s r) ∧
    (let sP : Session :=
      { doc := Doc.mk ["[A]".toList] [], placeholders := ["A".toList], values := [],
        pending := some "A".toList };
     let rE : ChatReq :=
      { message := "fix".toList, fill_all := none, start := false, edit_mode := true };
     chatAction sP rE = ChatMove.edit ∧
     (chat aiNone sP rE).1.values = [] ∧
     (chat aiNone sP rE).1.pending = some "A".toList ∧
     (chat aiNone sP rE).2.done = false) := by
  exact ⟨chat_dispatch, by decide⟩

/-- C6 counterexample: a chat request carrying the edit-mode flag and a
nonempty message but also a truthy fill_all map mutates values and reports
done true, so the claim quantified over every edit-mode request with a
nonempty message fails at this input. -/
theorem c6_counterexample :
    (let s : Session :=
      { doc := Doc.mk [] [], placeholders := ["A".toList], values := [], pending := none };
     let r : ChatReq :=
      { message := "go".toList, fill_all := some [("A".toList, "x".toList)],
        start := false, edit_mode := true };
     r.edit_mode = true ∧ pyStrip r.message ≠ [] ∧
     (chat aiNone s r).2.done = true ∧
     (chat aiNone s r).1.values = [("A".toList, "x".toList)] ∧
     (chat aiNone s r).1.values ≠ s.values) := by
  decide

/-- C6 (amended): a chat request with the edit-mode flag set, a nonempty
message, no truthy fill_all map and the start flag unset leaves the
session's placeholders, values and pending unchanged and reports done
false, even when values already cover every placeholder. -/
theorem c6_edit_frame (ai : Str → Str → Option Str) (s : Session) (req : ChatReq)
    (hedit : req.edit_mode = true) (hm : pyStrip req.message ≠ [])
    (hfa : fillAllTruthy req.fill_all = false) (hstart : req.start = false) :
    (chat ai s req).1.placeholders = s.placeholders ∧
    (chat ai s req).1.values = s.values ∧
    (chat ai s req).1.pending = s.pending ∧
    (chat ai s req).2.done = false := by
  rw [chat_edit_eq ai s req hedit hm hfa hstart]
  exact ⟨rfl, rfl, rfl, rfl⟩

/-- C6 witness: the frame statement at a session whose values already cover
every placeholder. -/
theorem c6_edit_frame_witness :
    (let s : Session :=
      { doc := Doc.mk ["[A]".toList] [], placeholders := ["A".toList],
        values := [("A".toList, "v".toList)], pending := none };
     let r : ChatReq :=
      { message := "tidy".toList, fill_all := none, start := false, edit_mode := true };
     r.edit_mode = true ∧ pyStrip r.message ≠ [] ∧ fillAllTruthy r.fill_all = false ∧
     r.start = false ∧
     ((chat aiNone s r).1.placeholders = s.placeholders ∧
      (chat aiNone s r).1.values = s.values ∧
      (chat aiNone s r).1.pending = s.pending ∧
      (chat aiNone s r).2.done = false)) :=
  ⟨by decide, by decide, by decide, by decide,
   c6_edit_frame aiNone
     { doc := Doc.mk ["[A]".toList] [], placeholders := ["A".toList],
       values := [("A".toList, "v".toList)], pending := none }
     { message := "tidy".toList, fill_all := none, start := false, edit_mode := true }
     (by decide) (by decide) (by decide) (by decide)⟩

/-- C5 counterexample: the empty fill_all map on a placeholder-free session
has keys forming a superset of the known placeholders, yet it is falsy in
the handler: nothing is merged and the response reports done false, not
true as the claim states. -/
theorem c5_counterexample :
    (uploadSession (Doc.mk [] [])).placeholders = [] ∧
    (chat aiNone (uploadSession (Doc.mk [] []))
      { message := [], fill_all := some [], start := false, edit_mode := false }).2.done
      = false ∧
    (chat aiNone (uploadSession (Doc.mk [] []))
      { message := [], fill_all := some [], start := false, edit_mode := false }).1.values
      = [] := by
  exact ⟨by decide, by decide, by decide⟩

/-- C5 (amended): a fill_all request with a NONEMPTY map merges it into
values unconditionally without changing the placeholder list, retains every
key of the map (unknown names included) in values, reports done true
whenever the map's keys cover all placeholders (so for any superset), and
if unfilled placeholders remain it reports done false with pending set to
the first still-unfilled one. -/
theorem c5_fill_all_spec (ai : Str → Str → Option Str) (s : Session) (req : ChatReq)
    (fa : List (Str × Str)) (hfa : req.fill_all = some fa) (hne : fa ≠ []) :
    (chat ai s req).1.placeholders = s.placeholders ∧
    (chat ai s req).1.values = dictUpdate s.values fa ∧
    (∀ k ∈ dictKeys fa, dictContains (chat ai s req).1.values k = true) ∧
    ((∀ p ∈ s.placeholders, p ∈ dictKeys fa) → (chat ai s req).2.done = true) ∧
    (s.placeholders.filter (fun p => ! dictContains (dictUpdate s.values fa) p) = [] →
      (chat ai s req).2.done = true) ∧
    (∀ nx rest,
      s.placeholders.filter (fun p => ! dictContains (dictUpdate s.values fa) p)
        = nx :: rest →
      (chat ai s req).2.done = false ∧ (chat ai s req).1.pending = some nx ∧
      (chat ai s req).2.pending = some nx) := by
  rw [chat_fillAll_eq ai s req fa hfa hne]
  have hsup : (∀ p ∈ s.placeholders, p ∈ dictKeys fa) →
      s.placeholders.filter (fun p => ! dictContains (dictUpdate s.values fa) p) = [] := by
    intro hs
    rw [List.filter_eq_nil_iff]
    intro a ha
    have hc := dictContains_dictUpdate_right fa s.values a (hs a ha)
    simp [hc]
  by_cases hrem :
      s.placeholders.filter (fun p => ! dictContains (dictUpdate s.values fa) p) = []
  · have hout : fillAllStep s fa =
        ({ s with values := dictUpdate s.values fa },
         { done := true, filled := dictKeys (dictUpdate s.values fa), pending := none }) := by
      simp [fillAllStep, hrem]
    rw [hout]
    refine ⟨rfl, rfl, ?_, fun _ => rfl, fun _ => rfl, ?_⟩
    · intro k hk
      exact dictContains_dictUpdate_right fa s.values k hk
    · intro nx rest h
      rw [hrem] at h
      exact absurd h (by simp)
  · obtain ⟨nx0, rest0, hcons⟩ :
        ∃ nx0 rest0, s.placeholders.filter
          (fun p => ! dictContains (dictUpdate s.values fa) p) = nx0 :: rest0 := by
      cases hc : s.placeholders.filter
          (fun p => ! dictContains (dictUpdate s.values fa) p) with
      | nil => exact absurd hc hrem
      | cons a b => exact ⟨a, b, rfl⟩
    have hout : fillAllStep s fa =
        ({ s with values := dictUpdate s.values fa, pending := some nx0 },
         { done := false, filled := dictKeys (dictUpdate s.values fa),
           pending := some nx0 }) := by
      simp [fillAllStep, hcons]
    rw [hout]
    refine ⟨rfl, rfl, ?_, ?_, ?_, ?_⟩
    · intro k hk
      exact dictContains_dictUpdate_right fa s.values k hk
    · intro hs
      exact absurd (hsup hs) hrem
    · intro h
      exact absurd h hrem
    · intro nx rest h
      rw [hcons] at h
      injection h with h1 _
      exact ⟨rfl, by rw [h1], by rw [h1]⟩

/-- C5 witness: the amended fill_all statement at a concrete session with a
map holding one known and one unknown key. -/
theorem c5_fill_all_spec_witness :
    (let s : Session :=
      { doc := Doc.mk ["[A] [B]".toList] [], placeholders := ["A".toList, "B".toList],
        values := [], pending := none };
     let r : ChatReq :=
      { message := [], fill_all := some [("A".toList, "1".toList), ("X".toList, "9".toList)],
        start := false, edit_mode := false };
     r.fill_all = some [("A".toList, "1".toList), ("X".toList, "9".toList)] ∧
     ([("A".toList, "1".toList), ("X".toList, "9".toList)] :
        List (Str × Str)) ≠ [] ∧
     ((chat aiNone s r).1.placeholders = s.placeholders ∧
      (chat aiNone s r).1.values =
        dictUpdate s.values [("A".toList, "1".toList), ("X".toList, "9".toList)] ∧
      (∀ k ∈ dictKeys [("A".toList, "1".toList), ("X".toList, "9".toList)],
        dictContains (chat aiNone s r).1.values k = true) ∧
      ((∀ p ∈ s.placeholders,
          p ∈ dictKeys [("A".toList, "1".toList), ("X".toList, "9".toList)]) →
        (chat aiNone s r).2.done = true) ∧
      (s.placeholders.filter (fun p => ! dictContains
          (dictUpdate s.values [("A".toList, "1".toList), ("X".toList, "9".toList)]) p)
          = [] → (chat aiNone s r).2.done = true) ∧
      (∀ nx rest,
        s.placeholders.filter (fun p => ! dictContains
          (dictUpdate s.values [("A".toList, "1".toList), ("X".toList, "9".toList)]) p)
          = nx :: rest →
        (chat aiNone s r).2.done = false ∧ (chat aiNone s r).1.pending = some nx ∧
        (chat aiNone s r).2.pending = some nx))) :=
  ⟨by decide, by decide,
   c5_fill_all_spec aiNone
     { doc := Doc.mk ["[A] [B]".toList] [], placeholders := ["A".toList, "B".toList],
       values := [], pending := none }
     { message := [], fill_all := some [("A".toList, "1".toList), ("X".toList, "9".toList)],
       start := false, edit_mode := false }
     [("A".toList, "1".toList), ("X".toList, "9".toList)] (by decide) (by decide)⟩

/-- C4: after uploading a document, starting the conversation and issuing
one nonempty answer per placeholder (each answered while that placeholder
is pending, in discovery order) ends with the response reporting done true
and filled equal to the placeholder list (hence equal as a set). -/
theorem c4_guided_fill (ai : Str → Str → Option Str) (d : Doc) (msgs : List Str)
    (hlen : msgs.length = (uploadSession d).placeholders.length)
    (hmsgs : msgs.all (fun m => !(pyStrip m).isEmpty) = true) :
    (runChat ai (uploadSession d) (startReq :: msgs.map answerReq)).2.done = true ∧
    (runChat ai (uploadSession d) (startReq :: msgs.map answerReq)).2.filled =
      (uploadSession d).placeholders := by
  have hmsgs2 : ∀ m ∈ msgs, pyStrip m ≠ [] := by
    intro m hm he
    have h := List.all_eq_true.mp hmsgs m hm
    rw [he] at h
    simp at h
  have hnodup := collect_placeholders_nodup d
  have hnonnil := collect_placeholders_ne_nil d
  have hfilt : (uploadSession d).placeholders.filter
      (fun p => ! dictContains (uploadSession d).values p) =
      (uploadSession d).placeholders := by
    rw [List.filter_eq_self]
    intro a _
    rfl
  simp only [runChat, List.foldl_cons]
  rw [chat_start_eq]
  cases hP : (uploadSession d).placeholders with
  | nil =>
    have hmsgs0 : msgs = [] := by
      have h0 : msgs.length = 0 := by rw [hlen, hP]; rfl
      exact List.eq_nil_of_length_eq_zero h0
    subst hmsgs0
    rw [startStep_spec_empty (uploadSession d) (by rw [hfilt, hP])]
    exact ⟨rfl, rfl⟩
  | cons r rest =>
    rw [startStep_spec_cons (uploadSession d) r rest (by rw [hfilt, hP])]
    have hres := run_answers ai (r :: rest) msgs []
      ({ uploadSession d with pending := some r })
      { done := false, filled := dictKeys (uploadSession d).values, pending := some r }
      (by simp only [List.nil_append]; exact hP)
      (by simp only [List.nil_append, ← hP]; exact hnodup)
      (by simp only [List.nil_append, ← hP]; exact hnonnil)
      (by rfl)
      (by rfl)
      (by rw [hlen, hP])
      hmsgs2
      (by simp)
    exact ⟨hres.1, by simpa using hres.2⟩

/-- C4 witness: the guided fill at a concrete two-placeholder document with
two nonempty answers. -/
theorem c4_guided_fill_witness :
    (let d : Doc := Doc.mk ["Dear [Name], you owe [Amount].".toList] [];
     let msgs : List Str := ["Jo".toList, "10".toList];
     msgs.length = (uploadSession d).placeholders.length ∧
     msgs.all (fun m => !(pyStrip m).isEmpty) = true ∧
     ((runChat aiNone (uploadSession d) (startReq :: msgs.map answerReq)).2.done = true ∧
      (runChat aiNone (uploadSession d) (startReq :: msgs.map answerReq)).2.filled =
        (uploadSession d).placeholders)) :=
  ⟨by decide, by decide,
   c4_guided_fill aiNone (Doc.mk ["Dear [Name], you owe [Amount].".toList] [])
     ["Jo".toList, "10".toList] (by decide) (by decide)⟩

/-- C1 counterexample: with a failing service, an edit turn on a document
whose only text lives in a table cell stores a different document (the
table is flattened into a body paragraph), so the stored document is not
unchanged; the response does still report done false. -/
theorem c1_counterexample :
    ((chat aiNone (uploadSession (Doc.mk [] [[[["hi".toList]]]]))
        { message := "x".toList, fill_all := none, start := false, edit_mode := true }).1.doc
      = Doc.mk ["hi".toList] []) ∧
    (uploadSession (Doc.mk [] [[[["hi".toList]]]])).doc ≠ Doc.mk ["hi".toList] [] ∧
    ((chat aiNone (uploadSession (Doc.mk [] [[[["hi".toList]]]]))
        { message := "x".toList, fill_all := none, start := false, edit_mode := true }).2.done
      = false) := by
  exact ⟨by decide, by decide, by decide⟩

/-- C1 (amended): when the service call fails during an edit-mode turn, the
response reports done false, and the stored document is unchanged provided
it has no tables and each paragraph is stripped, nonempty and free of
blank-line separators; otherwise the fallback round trip flattens tables
and normalizes whitespace, as the counterexample shows. -/
theorem c1_edit_fallback (ai : Str → Str → Option Str) (s : Session) (req : ChatReq)
    (hedit : req.edit_mode = true) (hm : pyStrip req.message ≠ [])
    (hfa : fillAllTruthy req.fill_all = false) (hstart : req.start = false)
    (hfail : ai (get_full_doc_text s.doc) (pyStrip req.message) = none)
    (htab : s.doc.tables = [])
    (hpar : s.doc.paragraphs.all
      (fun p => decide (pyStrip p = p) && !p.isEmpty && !hasNN p) = true) :
    (chat ai s req).1.doc = s.doc ∧ (chat ai s req).2.done = false := by
  rw [chat_edit_eq ai s req hedit hm hfa hstart]
  refine ⟨?_, rfl⟩
  show apply_ai_edits s.doc (get_ai_edit ai (get_full_doc_text s.doc) (pyStrip req.message))
    = s.doc
  rw [show get_ai_edit ai (get_full_doc_text s.doc) (pyStrip req.message)
      = get_full_doc_text s.doc by unfold get_ai_edit; rw [hfail]]
  apply ai_edit_fallback_id s.doc htab
  intro p hp
  have h := List.all_eq_true.mp hpar p hp
  simp only [Bool.and_eq_true, decide_eq_true_eq, Bool.not_eq_true'] at h
  exact ⟨h.1.1, ne_nil_of_isEmpty_false p h.1.2, h.2⟩

/-- C1 witness: the fallback statement at a concrete one-paragraph document
and a failing service oracle. -/
theorem c1_edit_fallback_witness :
    (let s : Session := uploadSession (Doc.mk ["hello".toList] []);
     let r : ChatReq :=
       { message := "x".toList, fill_all := none, start := false, edit_mode := true };
     r.edit_mode = true ∧ pyStrip r.message ≠ [] ∧ fillAllTruthy r.fill_all = false ∧
     r.start = false ∧ aiNone (get_full_doc_text s.doc) (pyStrip r.message) = none ∧
     s.doc.tables = [] ∧
     s.doc.paragraphs.all
       (fun p => decide (pyStrip p = p) && !p.isEmpty && !hasNN p) = true ∧
     ((chat aiNone s r).1.doc = s.doc ∧ (chat aiNone s r).2.done = false)) :=
  ⟨by decide, by decide, by decide, by decide, by decide, by decide, by decide,
   c1_edit_fallback aiNone (uploadSession (Doc.mk ["hello".toList] []))
     { message := "x".toList, fill_all := none, start := false, edit_mode := true }
     (by decide) (by decide) (by decide) (by decide) (by decide) (by decide) (by decide)⟩

/-- C2: the claimed invariant fails on the code: after start (pending
becomes Name) and a fill_all covering every placeholder, the handler
returns done true with pending null in the response, but never clears the
stored pending, so the stored state has pending = Name while Name is a key
of values - pending is set and IS a key of values, violating the claim. -/
theorem c2_stale_pending_evidence :
    (let s2 := chat aiNone
        ((chat aiNone (uploadSession (Doc.mk ["[Name]".toList] [])) startReq).1)
        { message := [], fill_all := some [("Name".toList, "x".toList)], start := false,
          edit_mode := false };
     s2.1.pending = some "Name".toList ∧
     dictContains s2.1.values "Name".toList = true ∧
     "Name".toList ∈ s2.1.placeholders ∧
     s2.2.pending = none ∧
     s2.2.done = true) := by
  decide
